import Mathlib

/-!
Shallow embedding of the runtime core of `src/cli.ts` (the `Cli` class of the
recette command-line framework): pattern validation, flag/option/argument
extraction, command resolution, and the middleware chain executor.

JavaScript strings are modelled as Lean `String`s; the JS string primitives
used by the source (`split`, `startsWith`, `slice`, `indexOf`, `trim`,
`includes`, `join`) are re-implemented below on `List Char` with JS
semantics.  JS `Map` and plain objects (used only through `get`/`set`/key
lookup) are modelled as insertion-ordered association lists where `set`
replaces the value of an existing key in place.  Handlers and middleware
bodies are modelled as programs in a small action language (`MwAct`) able to
call the `next` continuation and to read/write the shared variables store,
which is what the verified claims observe.
-/

namespace Recette

/-- JS `s.split(" ")`: split on every single space, keeping empty pieces. -/
def splitCharAux (sep : Char) : List Char → List Char → List String
  | [], acc => [String.mk acc.reverse]
  | c :: cs, acc =>
    if c == sep then String.mk acc.reverse :: splitCharAux sep cs []
    else splitCharAux sep cs (c :: acc)

/-- JS `s.split(" ")`. -/
def jsSplitSpace (s : String) : List String :=
  splitCharAux ' ' s.toList []

/-- JS `s.startsWith(pre)`. -/
def jsStartsWith (s pre : String) : Bool :=
  pre.toList.isPrefixOf s.toList

/-- JS `s.endsWith(suf)`. -/
def jsEndsWith (s suf : String) : Bool :=
  suf.toList.isSuffixOf s.toList

/-- JS `s.length` (all strings in play are ASCII, so code units = chars). -/
def jsLength (s : String) : Nat :=
  s.toList.length

/-- JS `s.slice(n)`. -/
def jsSliceFrom (s : String) (n : Nat) : String :=
  String.mk (s.toList.drop n)

/-- JS `s.slice(a, b)` for `0 ≤ a ≤ b`. -/
def jsSlice (s : String) (a b : Nat) : String :=
  String.mk ((s.toList.take b).drop a)

/-- JS `s.indexOf(c)` for a single character, `none` standing for `-1`. -/
def jsIndexOfChar (s : String) (c : Char) : Option Nat :=
  s.toList.findIdx? (fun x => x == c)

/-- JS `s.trim()` (the source only ever trims ASCII whitespace). -/
def jsTrim (s : String) : String :=
  String.mk (((s.toList.dropWhile Char.isWhitespace).reverse.dropWhile
    Char.isWhitespace).reverse)

/-- The `dropWhile` of a list is never longer than the list. -/
theorem dropWhile_len_le (p : Char → Bool) (l : List Char) :
    (l.dropWhile p).length ≤ l.length := by
  induction l with
  | nil => simp [List.dropWhile]
  | cons c cs ih =>
    by_cases h : p c = true
    · simp [List.dropWhile, h]
      omega
    · simp [List.dropWhile, h]

/-- Split on every single character satisfying `p`, keeping empty pieces. -/
def splitPredAux (p : Char → Bool) : List Char → List Char → List String
  | [], acc => [String.mk acc.reverse]
  | c :: cs, acc =>
    if p c then String.mk acc.reverse :: splitPredAux p cs []
    else splitPredAux p cs (c :: acc)

/-- JS `s.trim().split(/\s+/)`: for a blank string the result is `[""]`,
exactly as in JS; for a non-blank trimmed string, splitting on runs of
whitespace equals splitting on every whitespace character and dropping the
empty pieces the interior runs produce. -/
def jsTrimSplitWS (s : String) : List String :=
  let t := ((s.toList.dropWhile Char.isWhitespace).reverse.dropWhile
    Char.isWhitespace).reverse
  match t with
  | [] => [""]
  | c :: cs =>
    (splitPredAux Char.isWhitespace (c :: cs) []).filter (fun x => x ≠ "")

/-- JS `[].join(" ")`. -/
def jsJoinSpace : List String → String
  | [] => ""
  | [s] => s
  | s :: rest => s ++ " " ++ jsJoinSpace rest

/-- JS `hay.includes(needle)` (substring containment). -/
def listContainsSub (hay needle : List Char) : Bool :=
  match hay with
  | [] => needle.isEmpty
  | _ :: t => needle.isPrefixOf hay || listContainsSub t needle

/-- Insertion-ordered string-keyed map, the model of both JS `Map` (with
string keys) and JS plain objects used via `get`/`set`. -/
abbrev AList (α : Type) : Type := List (String × α)

/-- JS `map.set(k, v)` / `obj[k] = v`: replace in place, else append. -/
def mapSet {α : Type} : AList α → String → α → AList α
  | [], k, v => [(k, v)]
  | (k', v') :: t, k, v =>
    if k' == k then (k', v) :: t else (k', v') :: mapSet t k v

/-- JS `map.get(k)` / `obj[k]`, with `none` for `undefined`. -/
def mapGet {α : Type} : AList α → String → Option α
  | [], _ => none
  | (k', v') :: t, k => if k' == k then some v' else mapGet t k

theorem mapGet_mapSet_self {α : Type} (m : AList α) (k : String) (v : α) :
    mapGet (mapSet m k v) k = some v := by
  induction m with
  | nil => simp [mapSet, mapGet]
  | cons e t ih =>
    rcases e with ⟨k', v'⟩
    by_cases h : k' = k
    · subst h
      simp [mapSet, mapGet]
    · simp [mapSet, mapGet, h, ih]

theorem mapGet_mapSet_ne {α : Type} (m : AList α) (k k' : String) (v : α)
    (h : k' ≠ k) : mapGet (mapSet m k v) k' = mapGet m k' := by
  induction m with
  | nil => simp [mapSet, mapGet, Ne.symm h]
  | cons e t ih =>
    rcases e with ⟨k0, v0⟩
    by_cases h0 : k0 = k
    · subst h0
      simp [mapSet, mapGet, Ne.symm h]
    · by_cases h1 : k0 = k'
      · subst h1
        simp [mapSet, mapGet, h0]
      · simp [mapSet, mapGet, h0, h1, ih]

/-! ### Character classes of the source's regexes -/

/-- JS regex class `[a-zA-Z]` (`Char.isAlpha` is exactly ASCII letters). -/
def alphaCh (c : Char) : Bool := c.isAlpha

/-- JS regex class `[\w-]` = `[A-Za-z0-9_-]`. -/
def wordDash (c : Char) : Bool := c.isAlphanum || c == '_' || c == '-'

/-- JS regex class `[a-zA-Z_]`. -/
def alphaUnd (c : Char) : Bool := c.isAlpha || c == '_'

/-! ### Global scan of `/\[([^\]]+)\]/g` (bracket segments)

`bracketScan` returns the *inner* text of every match (the full match is
always `'[' ++ inner ++ ']'`).  Like the JS global regex it scans left to
right, restarting one character further on failure and after the closing
bracket on success. -/

/-- Fueled scanner for `/\[([^\]]+)\]/g`.  When the scan sits on a `'['`,
the first `']'` of the tail closes the match (the head of the `dropWhile`
below is necessarily `']'`); an empty inner text means the regex fails
here and the scan resumes one character further.  Every recursive call is
on a strictly shorter list, so fuel equal to the input length never runs
out. -/
def bracketScanF : Nat → List Char → List (List Char)
  | 0, _ => []
  | _ + 1, [] => []
  | fuel + 1, c :: cs =>
    if c == '[' then
      match cs.dropWhile (fun x => !(x == ']')) with
      | _ :: tail =>
        if (cs.takeWhile (fun x => !(x == ']'))).isEmpty then
          bracketScanF fuel cs
        else (cs.takeWhile (fun x => !(x == ']'))) :: bracketScanF fuel tail
      | [] => bracketScanF fuel cs
    else bracketScanF fuel cs

/-- Inner texts of all matches of `/\[([^\]]+)\]/g`. -/
def bracketScan (l : List Char) : List (List Char) :=
  bracketScanF l.length l

/-! ### Global scans of the flag and option regexes

Source regexes (`extractFlagDefs`, `extractOptionDefs`), written here
without their surrounding slashes:
  flag:   `--([a-zA-Z][\w-]*)(\|-[a-zA-Z])?`      (global)
  option: `--([a-zA-Z][\w-]*)(\|-[a-zA-Z])?=<[\w-]+>`  (global)
Both character classes exclude `|`, `=`, `<`, `>`, so the greedy run
`[\w-]*` never backtracks and matching at a position is deterministic. -/

/-- Attempt to match the value suffix `=<[\w-]+>` at the head of the list;
on success returns the remaining input. -/
def tryValueAt (l : List Char) : Option (List Char) :=
  match l with
  | a :: b :: t =>
    if a == '=' && b == '<' then
      if (t.takeWhile wordDash).isEmpty then none
      else
        match t.dropWhile wordDash with
        | d :: rest => if d == '>' then some rest else none
        | [] => none
    else none
  | _ => none

/-- Attempt to match the option regex at the head of the list; on success
returns the long name, the optional short name, and the remaining input.
If the optional short group `(\|-[a-zA-Z])` matches but the value suffix
does not follow it, the whole match fails (backing the group out cannot
succeed, since the value suffix can never start at the `'|'`). -/
def tryOptionAt (l : List Char) : Option (String × Option String × List Char) :=
  match l with
  | a :: b :: c :: cs =>
    if a == '-' && b == '-' && alphaCh c then
      let long := String.mk (c :: cs.takeWhile wordDash)
      match hr : cs.dropWhile wordDash with
      | p :: q :: s :: rest2 =>
        if p == '|' && q == '-' && alphaCh s then
          match tryValueAt rest2 with
          | some rest3 => some (long, some (String.mk [s]), rest3)
          | none => none
        else
          match tryValueAt (p :: q :: s :: rest2) with
          | some rest3 => some (long, none, rest3)
          | none => none
      | rest =>
        match tryValueAt rest with
        | some rest3 => some (long, none, rest3)
        | none => none
    else none
  | _ => none

/-- Attempt to match the flag regex at the head of the list. -/
def tryFlagAt (l : List Char) : Option (String × Option String × List Char) :=
  match l with
  | a :: b :: c :: cs =>
    if a == '-' && b == '-' && alphaCh c then
      let long := String.mk (c :: cs.takeWhile wordDash)
      match cs.dropWhile wordDash with
      | p :: q :: s :: rest2 =>
        if p == '|' && q == '-' && alphaCh s then
          some (long, some (String.mk [s]), rest2)
        else some (long, none, p :: q :: s :: rest2)
      | rest => some (long, none, rest)
    else none
  | _ => none

/-- A successful value-suffix match consumes at least one character. -/
theorem tryValueAt_rest_lt (l r : List Char) (h : tryValueAt l = some r) :
    r.length < l.length := by
  match l with
  | [] => simp [tryValueAt] at h
  | [a] => simp [tryValueAt] at h
  | a :: b :: t =>
    simp only [tryValueAt] at h
    split at h
    · split at h
      · exact absurd h (by simp)
      · split at h
        · rename_i d rest heq
          split at h
          · have hl := dropWhile_len_le wordDash t
            rw [heq] at hl
            simp only [Option.some.injEq] at h
            subst h
            simp only [List.length_cons] at hl ⊢
            omega
          · exact absurd h (by simp)
        · exact absurd h (by simp)
    · exact absurd h (by simp)

/-- A successful option match consumes at least one character. -/
theorem tryOptionAt_rest_lt (l : List Char) (lo : String) (sh : Option String)
    (r : List Char) (h : tryOptionAt l = some (lo, sh, r)) :
    r.length < l.length := by
  match l with
  | [] => simp [tryOptionAt] at h
  | [a] => simp [tryOptionAt] at h
  | [a, b] => simp [tryOptionAt] at h
  | a :: b :: c :: cs =>
    simp only [tryOptionAt] at h
    split at h
    · have hdw := dropWhile_len_le wordDash cs
      split at h
      · rename_i p q s rest2 heq
        rw [heq] at hdw
        split at h
        · split at h
          · rename_i rest3 hval
            have := tryValueAt_rest_lt rest2 rest3 hval
            simp only [Option.some.injEq, Prod.mk.injEq] at h
            obtain ⟨-, -, h3⟩ := h
            subst h3
            simp only [List.length_cons] at hdw this ⊢
            omega
          · exact absurd h (by simp)
        · split at h
          · rename_i rest3 hval
            have := tryValueAt_rest_lt (p :: q :: s :: rest2) rest3 hval
            simp only [Option.some.injEq, Prod.mk.injEq] at h
            obtain ⟨-, -, h3⟩ := h
            subst h3
            simp only [List.length_cons] at hdw this ⊢
            omega
          · exact absurd h (by simp)
      · split at h
        · rename_i rest3 hval
          have := tryValueAt_rest_lt _ rest3 hval
          simp only [Option.some.injEq, Prod.mk.injEq] at h
          obtain ⟨-, -, h3⟩ := h
          subst h3
          simp only [List.length_cons] at this ⊢
          omega
        · exact absurd h (by simp)
    · exact absurd h (by simp)

/-- A successful flag match consumes at least one character. -/
theorem tryFlagAt_rest_lt (l : List Char) (lo : String) (sh : Option String)
    (r : List Char) (h : tryFlagAt l = some (lo, sh, r)) :
    r.length < l.length := by
  match l with
  | [] => simp [tryFlagAt] at h
  | [a] => simp [tryFlagAt] at h
  | [a, b] => simp [tryFlagAt] at h
  | a :: b :: c :: cs =>
    simp only [tryFlagAt] at h
    split at h
    · have hdw := dropWhile_len_le wordDash cs
      split at h
      · rename_i p q s rest2 heq
        rw [heq] at hdw
        split at h
        · simp only [Option.some.injEq, Prod.mk.injEq] at h
          obtain ⟨-, -, h3⟩ := h
          subst h3
          simp only [List.length_cons] at hdw ⊢
          omega
        · simp only [Option.some.injEq, Prod.mk.injEq] at h
          obtain ⟨-, -, h3⟩ := h
          subst h3
          simp only [List.length_cons] at hdw ⊢
          omega
      · simp only [Option.some.injEq, Prod.mk.injEq] at h
        obtain ⟨-, -, h3⟩ := h
        subst h3
        simp only [List.length_cons] at hdw ⊢
        omega
    · exact absurd h (by simp)

/-- Fueled global scan of the option regex, returning `(long, short?)` in
match order.  `tryOptionAt_rest_lt` shows every recursive call is on a
strictly shorter list, so fuel equal to the input length never runs out. -/
def optionScanF : Nat → List Char → List (String × Option String)
  | 0, _ => []
  | _ + 1, [] => []
  | fuel + 1, c :: cs =>
    match tryOptionAt (c :: cs) with
    | some (lo, sh, rest) => (lo, sh) :: optionScanF fuel rest
    | none => optionScanF fuel cs

/-- Global scan of the option regex. -/
def optionScan (l : List Char) : List (String × Option String) :=
  optionScanF l.length l

/-- Fueled global scan of the flag regex (`tryFlagAt_rest_lt` justifies
the fuel). -/
def flagScanF : Nat → List Char → List (String × Option String)
  | 0, _ => []
  | _ + 1, [] => []
  | fuel + 1, c :: cs =>
    match tryFlagAt (c :: cs) with
    | some (lo, sh, rest) => (lo, sh) :: flagScanF fuel rest
    | none => flagScanF fuel cs

/-- Global scan of the flag regex. -/
def flagScan (l : List Char) : List (String × Option String) :=
  flagScanF l.length l

/-- Fueled JS `commandDef.replace(optionPattern, "")`: removes every
option match, keeping all other characters. -/
def stripOptionsF : Nat → List Char → List Char
  | 0, _ => []
  | _ + 1, [] => []
  | fuel + 1, c :: cs =>
    match tryOptionAt (c :: cs) with
    | some (_, _, rest) => stripOptionsF fuel rest
    | none => c :: stripOptionsF fuel cs

/-- JS `commandDef.replace(optionPattern, "")`. -/
def stripOptions (l : List Char) : List Char :=
  stripOptionsF l.length l

/-! ### Command-unit validation (`Cli.COMMAND_UNIT_PATTERNS`,
`Cli.validateCommandUnits`) -/

/-- Tail of a bracket unit after the optional dots: `[a-zA-Z_][\w-]*\??\]`
followed by end of string. -/
def bracketNameEnd (l : List Char) : Bool :=
  match l with
  | c :: rest =>
    alphaUnd c &&
      (rest.dropWhile wordDash == [']'] || rest.dropWhile wordDash == ['?', ']'])
  | [] => false

/-- Anchored regex `^[a-zA-Z][\w-]*$` (command or subcommand name). -/
def isCommandNameUnit (u : String) : Bool :=
  match u.toList with
  | c :: rest => alphaCh c && rest.all wordDash
  | [] => false

/-- Anchored regex `^\[(\.\.\.)?[a-zA-Z_][\w-]*\??\]$` (positional or
variadic argument). -/
def isBracketUnit (u : String) : Bool :=
  match u.toList with
  | '[' :: '.' :: '.' :: '.' :: rest => bracketNameEnd rest
  | '[' :: rest => bracketNameEnd rest
  | _ => false

/-- Anchored regex `^\[\.\.\.[a-zA-Z_][\w-]*\??\]$` (variadic argument). -/
def isVariadicUnit (u : String) : Bool :=
  match u.toList with
  | '[' :: '.' :: '.' :: '.' :: rest => bracketNameEnd rest
  | _ => false

/-- Anchored regex `^\[[a-zA-Z_][\w-]*\??\]$` (positional argument; the
name may not start with a dot, so variadic units never match). -/
def isPositionalUnit (u : String) : Bool :=
  match u.toList with
  | '[' :: rest => bracketNameEnd rest
  | _ => false

/-- The value suffix `=<[\w-]+>` anchored at end of string, given the input
after the `=`-sign position check. -/
def valueClose (t : List Char) : Bool :=
  !(t.takeWhile wordDash).isEmpty && t.dropWhile wordDash == ['>']

/-- Anchored regex `^--[a-zA-Z][\w-]+(\|-[a-zA-Z])?$` (flag unit). -/
def isFlagUnit (u : String) : Bool :=
  match u.toList with
  | '-' :: '-' :: c :: rest =>
    alphaCh c && !(rest.takeWhile wordDash).isEmpty &&
      (match rest.dropWhile wordDash with
       | [] => true
       | ['|', '-', s] => alphaCh s
       | _ => false)
  | _ => false

/-- Anchored regex `^--[a-zA-Z][\w-]+(\|-[a-zA-Z])?=<[\w-]+>$` (option
unit). -/
def isOptionUnit (u : String) : Bool :=
  match u.toList with
  | '-' :: '-' :: c :: rest =>
    alphaCh c && !(rest.takeWhile wordDash).isEmpty &&
      (match rest.dropWhile wordDash with
       | '=' :: '<' :: t => valueClose t
       | '|' :: '-' :: s :: '=' :: '<' :: t => alphaCh s && valueClose t
       | _ => false)
  | _ => false

/-- A unit is accepted when some entry of `COMMAND_UNIT_PATTERNS` matches. -/
def isValidUnit (u : String) : Bool :=
  isCommandNameUnit u || isBracketUnit u || isFlagUnit u || isOptionUnit u

/-- First phase of `validateCommandUnits`: every unit must match one of the
four anchored unit regexes. -/
def unitsSyntaxCheck : List String → Except String Unit
  | [] => Except.ok ()
  | u :: rest =>
    if isValidUnit u then unitsSyntaxCheck rest
    else Except.error ("Invalid command syntax: \"" ++ u ++ "\"")

/-- `Cli.validateCommandUnits`: unit syntax, at most one variadic, and no
positional/variadic after a variadic. -/
def validateCommandUnits (commandDef : String) : Except String Unit :=
  let units := jsTrimSplitWS commandDef
  match unitsSyntaxCheck units with
  | Except.error e => Except.error e
  | Except.ok _ =>
    match units.findIdx? isVariadicUnit with
    | none => Except.ok ()
    | some variadicIdx =>
      if (units.filter isVariadicUnit).length > 1 then
        Except.error ("Only one variadic argument is allowed")
      else if (units.drop (variadicIdx + 1)).any
          (fun u => isPositionalUnit u || isVariadicUnit u) then
        Except.error
          ("No positional or variadic argument allowed after variadic argument")
      else Except.ok ()

/-! ### Extraction of flag/option definitions and argument names -/

/-- `Cli.RESERVED_NAMES`. -/
def RESERVED_NAMES : List String := ["constructor", "prototype", "__proto__"]

/-- `Cli.checkReserved`. -/
def checkReserved (nm : String) : Except String Unit :=
  if RESERVED_NAMES.contains nm then
    Except.error ("Reserved word used as argument/flag/option name: \"" ++
      nm ++ "\"")
  else Except.ok ()

/-- A flag or option definition `{ long, short? }`. -/
structure FlagDef where
  long : String
  short : Option String
deriving DecidableEq, Repr

/-- Shared body of the `extractFlagDefs` / `extractOptionDefs` while-loops:
reserved-word checks, then duplicate-long, then duplicate-short checks, in
source order, accumulating the definitions in match order. -/
def collectDefsLoop (msgLong msgShort : String) :
    List (String × Option String) → List String → List String →
    Except String (List FlagDef)
  | [], _, _ => Except.ok []
  | (long, short) :: rest, seenLong, seenShort =>
    match checkReserved long with
    | Except.error e => Except.error e
    | Except.ok _ =>
      match (match short with
             | some s => checkReserved s
             | none => Except.ok ()) with
      | Except.error e => Except.error e
      | Except.ok _ =>
        if seenLong.contains long then
          Except.error (msgLong ++ "\"" ++ long ++ "\"")
        else
          match short with
          | some s =>
            if seenShort.contains s then
              Except.error (msgShort ++ "\"" ++ s ++ "\"")
            else
              match collectDefsLoop msgLong msgShort rest (long :: seenLong)
                  (s :: seenShort) with
              | Except.error e => Except.error e
              | Except.ok ds => Except.ok (⟨long, some s⟩ :: ds)
          | none =>
            match collectDefsLoop msgLong msgShort rest (long :: seenLong)
                seenShort with
            | Except.error e => Except.error e
            | Except.ok ds => Except.ok (⟨long, none⟩ :: ds)

/-- `Cli.extractFlagDefs`: strip all option matches, then scan the flag
regex globally. -/
def extractFlagDefs (commandDef : String) : Except String (List FlagDef) :=
  collectDefsLoop ("Duplicate flag name: ") ("Duplicate short flag name: ")
    (flagScan (stripOptions commandDef.toList)) [] []

/-- `Cli.extractOptionDefs`: scan the option regex globally. -/
def extractOptionDefs (commandDef : String) : Except String (List FlagDef) :=
  collectDefsLoop ("Duplicate option name: ") ("Duplicate short option name: ")
    (optionScan commandDef.toList) [] []

/-- Loop of `Cli.extractArgNames`: strips a `...` prefix (but not a `?`
suffix) and checks reserved words. -/
def argNamesLoop : List (List Char) → Except String (List String)
  | [] => Except.ok []
  | inner :: rest =>
    let nm := if "...".toList.isPrefixOf inner then String.mk (inner.drop 3)
      else String.mk inner
    match checkReserved nm with
    | Except.error e => Except.error e
    | Except.ok _ =>
      match argNamesLoop rest with
      | Except.error e => Except.error e
      | Except.ok ns => Except.ok (nm :: ns)

/-- `Cli.extractArgNames`. -/
def extractArgNames (commandDef : String) : Except String (List String) :=
  argNamesLoop (bracketScan commandDef.toList)

/-- Metadata of one bracket unit (`Cli.extractArgMetadata` entries). -/
structure ArgMeta where
  name : String
  optional : Bool
deriving DecidableEq, Repr

/-- `Cli.extractArgMetadata`: `optional` from the `?` suffix, then the `...`
prefix stripped. -/
def extractArgMetadata (commandDef : String) : List ArgMeta :=
  (bracketScan commandDef.toList).map (fun inner =>
    let isOpt := inner.getLast? == some '?'
    let base := if isOpt then inner.dropLast else inner
    let nm := if "...".toList.isPrefixOf base then base.drop 3 else base
    ⟨String.mk nm, isOpt⟩)

/-! ### Parsed values and argument extraction -/

/-- A parsed argument value: a single string or the variadic list. -/
inductive ArgVal where
  | str (s : String)
  | list (l : List String)
deriving DecidableEq, Repr

/-- Fueled loop of `Cli.parseOptionsWithConsumed`: a single left-to-right
pass recording the raw-argv indexes consumed as option values.  The JS
`while` exits as soon as `i` reaches `args.length` and `i` grows by at
least one per iteration, so fuel equal to `args.length` (which keeps
`fuel ≥ args.length - i` across every call) never runs out: whenever the
fuel hits zero, `args[i]?` is already `none`. -/
def powcLoopF (optionDefs : List FlagDef) (args : List String) :
    Nat → Nat → AList (Option String) → List Nat →
    AList (Option String) × List Nat
  | 0, _, result, consumed => (result, consumed)
  | fuel + 1, i, result, consumed =>
  match args[i]? with
  | none => (result, consumed)
  | some arg =>
    if jsStartsWith arg ("--") then
      match jsIndexOfChar arg '=' with
      | some eqIdx =>
        let nm := jsSlice arg 2 eqIdx
        let value := jsSliceFrom arg (eqIdx + 1)
        match optionDefs.find? (fun o => o.long == nm) with
        | some d => powcLoopF optionDefs args fuel (i + 1)
            (mapSet result d.long (some value)) (consumed ++ [i])
        | none => powcLoopF optionDefs args fuel (i + 1) result consumed
      | none =>
        let nm := jsSliceFrom arg 2
        match optionDefs.find? (fun o => o.long == nm), args[i + 1]? with
        | some d, some nextArg =>
          if !jsStartsWith nextArg ("-") then
            powcLoopF optionDefs args fuel (i + 2)
              (mapSet result d.long (some nextArg)) (consumed ++ [i + 1])
          else powcLoopF optionDefs args fuel (i + 1) result consumed
        | _, _ => powcLoopF optionDefs args fuel (i + 1) result consumed
    else if jsStartsWith arg ("-") && jsLength arg == 2 then
      let nm := jsSliceFrom arg 1
      match optionDefs.find? (fun o => o.short == some nm), args[i + 1]? with
      | some d, some nextArg =>
        if !jsStartsWith nextArg ("-") then
          powcLoopF optionDefs args fuel (i + 2)
            (mapSet result d.long (some nextArg)) (consumed ++ [i + 1])
        else powcLoopF optionDefs args fuel (i + 1) result consumed
      | _, _ => powcLoopF optionDefs args fuel (i + 1) result consumed
    else powcLoopF optionDefs args fuel (i + 1) result consumed

/-- `Cli.parseOptionsWithConsumed` (throws through `extractOptionDefs`). -/
def parseOptionsWithConsumed (commandDef : String) (args : List String) :
    Except String (AList (Option String) × List Nat) :=
  match extractOptionDefs commandDef with
  | Except.error e => Except.error e
  | Except.ok optionDefs =>
    Except.ok (powcLoopF optionDefs args args.length 0
      (optionDefs.foldl (fun r d => mapSet r d.long none) []) [])

/-- The `argNames.forEach((name, i) => …)` binding of
`Cli.parseCommandArgs`: declaration index `i` is paired with raw index `i`. -/
def bindPos : List String → Nat → List String → List Nat → AList ArgVal →
    AList ArgVal
  | [], _, _, _, r => r
  | nm :: rest, i, args, consumed, r =>
    bindPos rest (i + 1) args consumed
      (match args[i]? with
       | some v =>
         if !jsStartsWith v ("-") && !consumed.contains i then
           mapSet r nm (ArgVal.str v)
         else r
       | none => r)

/-- The variadic filter of `Cli.parseCommandArgs`: every raw token from the
variadic's declaration index on that is not a dash token and was not
consumed as an option value. -/
def collectVariadic (args : List String) (variadicIdx : Nat)
    (consumed : List Nat) : List String :=
  ((args.enum).drop variadicIdx).filterMap (fun p =>
    if !jsStartsWith p.2 ("-") && !consumed.contains p.1 then some p.2
    else none)

/-- The `argNames` mapping of `Cli.parseCommandArgs`: inner bracket text
with the `...` prefix stripped, else the `?` suffix stripped. -/
def parsedArgNames (commandDef : String) : List String :=
  (bracketScan commandDef.toList).map (fun inner =>
    if "...".toList.isPrefixOf inner then String.mk (inner.drop 3)
    else if inner.getLast? == some '?' then String.mk inner.dropLast
    else String.mk inner)

/-- `Cli.parseCommandArgs`. -/
def parseCommandArgs (commandDef : String) (args : List String) :
    Except String (AList ArgVal) :=
  let inners := bracketScan commandDef.toList
  let argNames := parsedArgNames commandDef
  match parseOptionsWithConsumed commandDef args with
  | Except.error e => Except.error e
  | Except.ok pc =>
    match inners.findIdx? (fun inner => "...".toList.isPrefixOf inner) with
    | none => Except.ok (bindPos argNames 0 args pc.2 [])
    | some variadicIdx =>
      let r := bindPos (argNames.take variadicIdx) 0 args pc.2 []
      match argNames[variadicIdx]? with
      | some variadicName =>
        Except.ok (mapSet r variadicName
          (ArgVal.list (collectVariadic args variadicIdx pc.2)))
      | none => Except.ok r

/-- Loop of `Cli.validateArgs` over the argument metadata, in order. -/
def validateArgsLoop (commandDef : String) (parsedArgs : AList ArgVal) :
    List ArgMeta → Except String Unit
  | [] => Except.ok ()
  | m :: rest =>
    let isVariadic := listContainsSub commandDef.toList
      (("[..." ++ m.name ++ "]").toList)
    let missing := match mapGet parsedArgs m.name with
      | none => true
      | some (ArgVal.list l) => !isVariadic && l.isEmpty
      | some (ArgVal.str _) => false
    if !m.optional && missing then
      Except.error ("Required argument '" ++ m.name ++ "' is missing")
    else validateArgsLoop commandDef parsedArgs rest

/-- `Cli.validateArgs`. -/
def validateArgs (commandDef : String) (parsedArgs : AList ArgVal) :
    Except String Unit :=
  validateArgsLoop commandDef parsedArgs (extractArgMetadata commandDef)

/-! ### The merged parsers used inside `run` -/

/-- The `flagDefsMap` / `optionDefsMap` merge in `Cli.run`: insert every
definition into a `Map` keyed on the long name (so a later definition
replaces an earlier one with the same long name), then take the values. -/
def mergeDefs (allDefs : List FlagDef) : List FlagDef :=
  (allDefs.foldl (fun m f => mapSet m f.long f) ([] : AList FlagDef)).map
    (fun e => e.2)

/-- `parseFlagsMerged` inside `Cli.run` (identical to `Cli.parseFlags` but
over the merged definitions). -/
def parseFlagsMerged (mergedFlagDefs : List FlagDef) (args : List String) :
    AList Bool :=
  args.foldl (fun r arg =>
    if jsStartsWith arg ("--") then
      match mergedFlagDefs.find? (fun f => f.long == jsSliceFrom arg 2) with
      | some d => mapSet r d.long true
      | none => r
    else if jsStartsWith arg ("-") && jsLength arg == 2 then
      match mergedFlagDefs.find? (fun f => f.short == some (jsSliceFrom arg 1)) with
      | some d => mapSet r d.long true
      | none => r
    else r)
    (mergedFlagDefs.foldl (fun r f => mapSet r f.long false) [])

/-- Fueled loop of `parseOptionsMerged` inside `Cli.run` (same pass as
`powcLoopF`, without consumed-index bookkeeping; same fuel argument). -/
def pomLoopF (optionDefs : List FlagDef) (args : List String) :
    Nat → Nat → AList (Option String) → AList (Option String)
  | 0, _, result => result
  | fuel + 1, i, result =>
  match args[i]? with
  | none => result
  | some arg =>
    if jsStartsWith arg ("--") then
      match jsIndexOfChar arg '=' with
      | some eqIdx =>
        let nm := jsSlice arg 2 eqIdx
        let value := jsSliceFrom arg (eqIdx + 1)
        match optionDefs.find? (fun o => o.long == nm) with
        | some d => pomLoopF optionDefs args fuel (i + 1)
            (mapSet result d.long (some value))
        | none => pomLoopF optionDefs args fuel (i + 1) result
      | none =>
        let nm := jsSliceFrom arg 2
        match optionDefs.find? (fun o => o.long == nm), args[i + 1]? with
        | some d, some nextArg =>
          if !jsStartsWith nextArg ("-") then
            pomLoopF optionDefs args fuel (i + 2)
              (mapSet result d.long (some nextArg))
          else pomLoopF optionDefs args fuel (i + 1) result
        | _, _ => pomLoopF optionDefs args fuel (i + 1) result
    else if jsStartsWith arg ("-") && jsLength arg == 2 then
      let nm := jsSliceFrom arg 1
      match optionDefs.find? (fun o => o.short == some nm), args[i + 1]? with
      | some d, some nextArg =>
        if !jsStartsWith nextArg ("-") then
          pomLoopF optionDefs args fuel (i + 2)
            (mapSet result d.long (some nextArg))
        else pomLoopF optionDefs args fuel (i + 1) result
      | _, _ => pomLoopF optionDefs args fuel (i + 1) result
    else pomLoopF optionDefs args fuel (i + 1) result

/-- `parseOptionsMerged` inside `Cli.run`. -/
def parseOptionsMerged (mergedOptionDefs : List FlagDef)
    (args : List String) : AList (Option String) :=
  pomLoopF mergedOptionDefs args args.length 0
    (mergedOptionDefs.foldl (fun r d => mapSet r d.long none) [])

/-! ### Middleware matching, resolution and the chain executor -/

/-- The literal tokens of a pattern as filtered by `Cli.isMiddlewareMatch`
(everything not starting with `--`, `-` or `[`). -/
def mwLiteralTokens (s : String) : List String :=
  (jsTrimSplitWS s).filter (fun t =>
    !jsStartsWith t ("--") && !jsStartsWith t ("-") && !jsStartsWith t ("["))

/-- `Cli.isMiddlewareMatch`. -/
def isMiddlewareMatch (mwPath cmdDef : String) : Bool :=
  if jsTrim mwPath == "" then true
  else
    let mwTokens := mwLiteralTokens mwPath
    let cmdTokens := mwLiteralTokens cmdDef
    if mwTokens.isEmpty then true
    else (mwTokens.enum).all (fun p => cmdTokens[p.1]? == some p.2)

/-- One middleware or handler body, as a program of observable actions:
calling the `next` continuation, and `set`/`get` on the shared variables
store (a `get` is logged together with the value it returned). -/
inductive MwAct where
  | next
  | setv (k v : String)
  | getv (k : String)
deriving DecidableEq, Repr

/-- A middleware/handler body. -/
abbrev Prog : Type := List MwAct

/-- The literal name path of a registered pattern: leading `split(" ")`
parts up to the first one starting with `[` or `--`. -/
def cmdNameParts (d : String) : List String :=
  (jsSplitSpace d).takeWhile (fun p =>
    !(jsStartsWith p ("[") || jsStartsWith p ("--")))

/-- One step of the resolution fold in `Cli.run`: compare the joined name
path with the joined argv prefix, and keep the entry when its name path is
strictly longer than the best so far. -/
def selectStep {α : Type} (argv : List String)
    (acc : Option (String × α) × Nat) (e : String × α) :
    Option (String × α) × Nat :=
  let cnp := cmdNameParts e.1
  if jsJoinSpace cnp == jsJoinSpace (argv.take cnp.length) then
    if cnp.length > acc.2 then (some e, cnp.length) else acc
  else acc

/-- The `found` computation of `Cli.run` over the registry in insertion
order. -/
def selectCommand {α : Type} (cmds : List (String × α))
    (argv : List String) : Option (String × α) :=
  (cmds.foldl (selectStep argv) (none, 0)).1

/-- The middleware chain executor of `Cli.run`.  `execActs acts called rest
st` runs the remaining actions `acts` of the current link, whose one-shot
continuation flag is `called` and whose inner chain is `rest`, over store
`st`; it returns the final store and the log of `get` observations, or the
first raised error.  A `next` action with `called = true` raises
`next() called multiple times`; otherwise it runs the inner chain to
completion before the current link continues (the source's shared `idx`
counter follows this same stack discipline). -/
def execActs : List MwAct → Bool → List Prog → AList String →
    Except String (AList String × List (String × Option String))
  | [], _, _, st => Except.ok (st, [])
  | MwAct.next :: as, called, rest, st =>
    if called then Except.error ("next() called multiple times")
    else
      match rest with
      | [] => execActs as true [] st
      | p :: rest' =>
        match execActs p false rest' st with
        | Except.error e => Except.error e
        | Except.ok (st', log') =>
          match execActs as true (p :: rest') st' with
          | Except.error e => Except.error e
          | Except.ok (st'', log'') => Except.ok (st'', log' ++ log'')
  | MwAct.setv k v :: as, called, rest, st =>
    execActs as called rest (mapSet st k v)
  | MwAct.getv k :: as, called, rest, st =>
    match execActs as called rest st with
    | Except.error e => Except.error e
    | Except.ok (st', log) => Except.ok (st', (k, mapGet st k) :: log)
termination_by as _ rest _ => (rest.length, as.length)
decreasing_by
  all_goals
    first
      | (apply Prod.Lex.right; simp)
      | (apply Prod.Lex.left; simp)

/-- Run a full chain (`await next()` at the bottom of `Cli.run`): the
first link starts with a fresh one-shot flag, with the later links as its
inner chain. -/
def execChain (progs : List Prog) (st : AList String) :
    Except String (AList String × List (String × Option String)) :=
  match progs with
  | [] => Except.ok (st, [])
  | p :: rest => execActs p false rest st

/-! ### The `Cli` registry and `run` -/

/-- The `Cli` class state: `commands` is the insertion-ordered `Map` from
pattern string to handler (the stored entry's `def` field always equals
its key, so it is not duplicated here), `middlewares` the registration
list, and `variables` the instance field of the class (initialised empty
and never read nor written by any method). -/
structure Cli where
  name : String
  commands : List (String × Prog)
  middlewares : List (String × Prog)
  vars : AList String
deriving DecidableEq, Repr

/-- A fresh CLI (`new Cli({name})`). -/
def mkCli (nm : String) : Cli := ⟨nm, [], [], []⟩

/-- The flag-name vs option-name collision check in `Cli.command`. -/
def flagOptionCheckLoop (flagNames : List String) :
    List FlagDef → Except String Unit
  | [] => Except.ok ()
  | o :: rest =>
    if flagNames.contains o.long then
      Except.error ("Duplicate flag and option name: \"" ++ o.long ++ "\"")
    else flagOptionCheckLoop flagNames rest

/-- The `seen`-set duplicate-argument loop of `Cli.command`. -/
def checkDupArgs : List String → List String → Except String Unit
  | [], _ => Except.ok ()
  | a :: rest, seen =>
    if seen.contains a then
      Except.error ("Duplicate argument name: \"" ++ a ++ "\"")
    else checkDupArgs rest (a :: seen)

/-- `Cli.command`: registration-time validation, then `commands.set`. -/
def Cli.command (cli : Cli) (nm : String) (handler : Prog) :
    Except String Cli :=
  match validateCommandUnits nm with
  | Except.error e => Except.error e
  | Except.ok _ =>
    match extractFlagDefs nm with
    | Except.error e => Except.error e
    | Except.ok flagDefs =>
      match extractOptionDefs nm with
      | Except.error e => Except.error e
      | Except.ok optionDefs =>
        match flagOptionCheckLoop (flagDefs.map (fun f => f.long)) optionDefs with
        | Except.error e => Except.error e
        | Except.ok _ =>
          match extractArgNames nm with
          | Except.error e => Except.error e
          | Except.ok argNames =>
            match checkDupArgs argNames [] with
            | Except.error e => Except.error e
            | Except.ok _ =>
              Except.ok { cli with commands := mapSet cli.commands nm handler }

/-- `Cli.use`: middleware registration (no positional/variadic units). -/
def Cli.use (cli : Cli) (path : String) (handler : Prog) :
    Except String Cli :=
  match validateCommandUnits path with
  | Except.error e => Except.error e
  | Except.ok _ =>
    if !(bracketScan path.toList).isEmpty then
      Except.error ("Middleware path must not contain positional or variadic arguments. Only flags and options are allowed.")
    else Except.ok { cli with middlewares := cli.middlewares ++ [(path, handler)] }

/-- `Cli.mount`: copy every entry of the sub-registry into the parent with
the prefix prepended (handlers shared, pattern strings rebuilt). -/
def Cli.mount (cli : Cli) (pfx : String) (subCli : Cli) : Cli :=
  { cli with commands :=
      (subCli.commands.foldl
        (fun cs e => mapSet cs (pfx ++ " " ++ e.1) e.2) cli.commands) }

/-- The matched-middleware filter in `Cli.run`. -/
def matchedMiddlewares (cli : Cli) (commandDef : String) :
    List (String × Prog) :=
  cli.middlewares.filter (fun mw => isMiddlewareMatch mw.1 commandDef)

/-- The per-invocation parse data built by `Cli.run` and closed over by the
context accessors. -/
structure CtxData where
  parsedArgs : AList ArgVal
  parsedFlags : AList Bool
  parsedOptions : AList (Option String)
deriving DecidableEq, Repr

/-- Context accessor `arg` (string values only, else `undefined`). -/
def ctxArg (c : CtxData) (nm : String) : Option String :=
  match mapGet c.parsedArgs nm with
  | some (ArgVal.str s) => some s
  | _ => none

/-- Context accessor `args` (array values only, else `[]`). -/
def ctxArgs (c : CtxData) (nm : String) : List String :=
  match mapGet c.parsedArgs nm with
  | some (ArgVal.list l) => l
  | _ => []

/-- Context accessor `flag` (the Proxy returns `undefined` for undeclared
names). -/
def ctxFlag (c : CtxData) (nm : String) : Option Bool :=
  mapGet c.parsedFlags nm

/-- Context accessor `option`. -/
def ctxOption (c : CtxData) (nm : String) : Option String :=
  match mapGet c.parsedOptions nm with
  | some v => v
  | none => none

/-- The parsing phase of `Cli.run` after resolution: build the merged
flag/option definitions (command first, then each matched middleware),
then parse `restArgs` once.  Any error thrown by the extractors escapes
`run` uncaught. -/
def runParse (commandDef : String) (mws : List (String × Prog))
    (restArgs : List String) : Except String CtxData :=
  match extractFlagDefs commandDef with
  | Except.error e => Except.error e
  | Except.ok cmdFlagDefs =>
    match mws.mapM (fun mw => extractFlagDefs mw.1) with
    | Except.error e => Except.error e
    | Except.ok mwFlagDefs =>
      match extractOptionDefs commandDef with
      | Except.error e => Except.error e
      | Except.ok cmdOptionDefs =>
        match mws.mapM (fun mw => extractOptionDefs mw.1) with
        | Except.error e => Except.error e
        | Except.ok mwOptionDefs =>
          match parseCommandArgs commandDef restArgs with
          | Except.error e => Except.error e
          | Except.ok parsedArgs =>
            Except.ok ⟨parsedArgs,
              parseFlagsMerged (mergeDefs (cmdFlagDefs ++ mwFlagDefs.join))
                restArgs,
              parseOptionsMerged (mergeDefs (cmdOptionDefs ++ mwOptionDefs.join))
                restArgs⟩

/-- Outcome of one `run` invocation.  `noCommand` and `missingArg` are the
reported-and-returned resolution failures (`console.error` + usage, then a
normal return); `thrown` is an error escaping `run`; `completed` carries
the context data, the final variables store, and the `get` observation
log. -/
inductive RunResult where
  | noCommand
  | missingArg (msg : String)
  | thrown (msg : String)
  | completed (ctx : CtxData) (store : AList String)
      (log : List (String × Option String))
deriving DecidableEq, Repr

/-- `Cli.run`: resolve, parse, validate, then execute the middleware chain
with the handler as innermost link, starting from an empty fresh variables
store. -/
def Cli.run (cli : Cli) (argv : List String) : RunResult :=
  match selectCommand cli.commands argv with
  | none => RunResult.noCommand
  | some (commandDef, handler) =>
    let restArgs := argv.drop (cmdNameParts commandDef).length
    let mws := matchedMiddlewares cli commandDef
    match runParse commandDef mws restArgs with
    | Except.error e => RunResult.thrown e
    | Except.ok ctx =>
      match validateArgs commandDef ctx.parsedArgs with
      | Except.error m => RunResult.missingArg m
      | Except.ok _ =>
        match execChain (mws.map (fun mw => mw.2) ++ [handler]) [] with
        | Except.error m => RunResult.thrown m
        | Except.ok (st, log) => RunResult.completed ctx st log

/-- `run` together with the registry state afterwards: `run` reads the
registry and never writes it (in particular the instance `variables` field
stays untouched; the store used by the chain is the fresh local one). -/
def Cli.runS (cli : Cli) (argv : List String) : RunResult × Cli :=
  (cli.run argv, cli)

/-! ### Specification-side definitions

The following definitions follow the words of the specification (not the
source); each exists only to be compared against the corresponding
source-derived definition above. -/

/-- Spec wording: the pattern's required (non-optional, non-variadic)
positional count. -/
def requiredArgCountSpec (d : String) : Nat :=
  ((bracketScan d.toList).filter (fun inner =>
    !("...".toList.isPrefixOf inner) && !(inner.getLast? == some '?'))).length

/-- Spec wording of the resolution step (claim C1): a name-path-matching
pattern is tracked as the match only once argv has at least as many
remaining tokens as its required positional count. -/
def selectStepSpecC1 {α : Type} (argv : List String)
    (acc : Option (String × α) × Nat) (e : String × α) :
    Option (String × α) × Nat :=
  let cnp := cmdNameParts e.1
  if jsJoinSpace cnp == jsJoinSpace (argv.take cnp.length) &&
      decide (requiredArgCountSpec e.1 ≤ argv.length - cnp.length) then
    if cnp.length > acc.2 then (some e, cnp.length) else acc
  else acc

/-- Spec wording of the resolution fold (claim C1). -/
def selectCommandSpecC1 {α : Type} (cmds : List (String × α))
    (argv : List String) : Option (String × α) :=
  (cmds.foldl (selectStepSpecC1 argv) (none, 0)).1

/-- Spec wording of the flag/option grammar union (claim C2): command
definitions take precedence over middleware definitions on long-name
collision — inserting the middleware definitions first and the command's
own afterwards realises exactly that precedence. -/
def mergeDefsSpecC2 (cmdDefs mwDefs : List FlagDef) : List FlagDef :=
  mergeDefs (mwDefs ++ cmdDefs)

/-- Spec wording of positional extraction (claim C3): first remove the
option-consumed indexes, then walk the remaining tokens that do not start
with `-`, assigning them in declaration order; a variadic takes all the
walked tokens from its declaration position on. -/
def parseCommandArgsSpecC3 (commandDef : String) (args : List String) :
    Except String (AList ArgVal) :=
  match parseOptionsWithConsumed commandDef args with
  | Except.error e => Except.error e
  | Except.ok pc =>
    let remaining := ((args.enum).filter (fun q =>
      !pc.2.contains q.1 && !jsStartsWith q.2 ("-"))).map (fun q => q.2)
    let argNames := parsedArgNames commandDef
    match (bracketScan commandDef.toList).findIdx?
        (fun inner => "...".toList.isPrefixOf inner) with
    | none =>
      Except.ok ((argNames.zip remaining).foldl
        (fun r q => mapSet r q.1 (ArgVal.str q.2)) [])
    | some variadicIdx =>
      let r := ((argNames.take variadicIdx).zip remaining).foldl
        (fun r q => mapSet r q.1 (ArgVal.str q.2)) []
      match argNames[variadicIdx]? with
      | some variadicName =>
        Except.ok (mapSet r variadicName
          (ArgVal.list (remaining.drop variadicIdx)))
      | none => Except.ok r

/-! ### Helper predicates and lemmas -/

/-- The name path of `d` matches the corresponding argv prefix, in the
joined form the source compares. -/
def npMatches (d : String) (argv : List String) : Prop :=
  jsJoinSpace (cmdNameParts d) =
    jsJoinSpace (argv.take (cmdNameParts d).length)

/-- Invariant of the resolution fold of `Cli.run`: either nothing has been
tracked yet and every processed matching entry has an empty name path, or
the tracked entry is a processed matching entry of positive name-path
length maximal among all processed matching entries. -/
def SelInv {α : Type} (argv : List String) (processed : List (String × α))
    (acc : Option (String × α) × Nat) : Prop :=
  (acc.1 = none ∧ acc.2 = 0 ∧
    ∀ e ∈ processed, npMatches e.1 argv → (cmdNameParts e.1).length = 0) ∨
  (∃ d p, acc.1 = some (d, p) ∧ acc.2 = (cmdNameParts d).length ∧
    (d, p) ∈ processed ∧ npMatches d argv ∧ 0 < (cmdNameParts d).length ∧
    ∀ e ∈ processed, npMatches e.1 argv →
      (cmdNameParts e.1).length ≤ acc.2)

theorem selStep_inv {α : Type} (argv : List String)
    (processed : List (String × α)) (acc : Option (String × α) × Nat)
    (e : String × α) (h : SelInv argv processed acc) :
    SelInv argv (processed ++ [e]) (selectStep argv acc e) := by
  rcases acc with ⟨accFound, accLen⟩
  rcases e with ⟨d0, p0⟩
  by_cases hm : jsJoinSpace (cmdNameParts d0) =
      jsJoinSpace (argv.take (cmdNameParts d0).length)
  · by_cases hl : (cmdNameParts d0).length > accLen
    · have hstep : selectStep argv (accFound, accLen) (d0, p0) =
          (some (d0, p0), (cmdNameParts d0).length) := by
        simp [selectStep, hm, hl]
      rw [hstep]
      right
      refine ⟨d0, p0, rfl, rfl, by simp, hm, by omega, ?_⟩
      intro e' he' hm'
      rcases List.mem_append.mp he' with he' | he'
      · rcases h with ⟨-, hz, hall⟩ | ⟨d1, p1, -, hlen1, -, -, -, hall⟩
        · have := hall e' he' hm'
          omega
        · have := hall e' he' hm'
          omega
      · rcases List.mem_singleton.mp he' with rfl
        simp
    · have hstep : selectStep argv (accFound, accLen) (d0, p0) =
          (accFound, accLen) := by
        simp [selectStep, hm, hl]
      rw [hstep]
      rcases h with ⟨h1, h2, hall⟩ | ⟨d1, p1, h1, h2, h3, h4, h5, hall⟩
      · left
        refine ⟨h1, h2, ?_⟩
        intro e' he' hm'
        rcases List.mem_append.mp he' with he' | he'
        · exact hall e' he' hm'
        · rcases List.mem_singleton.mp he' with rfl
          simp only at hm' ⊢
          omega
      · right
        refine ⟨d1, p1, h1, h2, List.mem_append_left _ h3, h4, h5, ?_⟩
        intro e' he' hm'
        rcases List.mem_append.mp he' with he' | he'
        · exact hall e' he' hm'
        · rcases List.mem_singleton.mp he' with rfl
          simp only at hm' ⊢
          omega
  · have hstep : selectStep argv (accFound, accLen) (d0, p0) =
        (accFound, accLen) := by
      simp [selectStep, hm]
    rw [hstep]
    rcases h with ⟨h1, h2, hall⟩ | ⟨d1, p1, h1, h2, h3, h4, h5, hall⟩
    · left
      refine ⟨h1, h2, ?_⟩
      intro e' he' hm'
      rcases List.mem_append.mp he' with he' | he'
      · exact hall e' he' hm'
      · rcases List.mem_singleton.mp he' with rfl
        exact absurd hm' hm
    · right
      refine ⟨d1, p1, h1, h2, List.mem_append_left _ h3, h4, h5, ?_⟩
      intro e' he' hm'
      rcases List.mem_append.mp he' with he' | he'
      · exact hall e' he' hm'
      · rcases List.mem_singleton.mp he' with rfl
        exact absurd hm' hm

theorem selFold_inv {α : Type} (argv : List String) :
    ∀ (cmds processed : List (String × α)) (acc : Option (String × α) × Nat),
    SelInv argv processed acc →
    SelInv argv (processed ++ cmds) (cmds.foldl (selectStep argv) acc)
  | [], processed, acc, h => by simpa using h
  | e :: rest, processed, acc, h => by
    have h2 := selFold_inv argv rest (processed ++ [e])
      (selectStep argv acc e) (selStep_inv argv processed acc e h)
    simpa [List.append_assoc] using h2

/-- Soundness of the resolution fold: the selected entry is a registered,
name-path-matching entry of positive and maximal name-path length. -/
theorem selectCommand_spec_some {α : Type} (cmds : List (String × α))
    (argv : List String) (d : String) (p : α)
    (h : selectCommand cmds argv = some (d, p)) :
    (d, p) ∈ cmds ∧ npMatches d argv ∧ 0 < (cmdNameParts d).length ∧
    ∀ e ∈ cmds, npMatches e.1 argv →
      (cmdNameParts e.1).length ≤ (cmdNameParts d).length := by
  have hinv := selFold_inv argv cmds [] (none, 0)
    (Or.inl ⟨rfl, rfl, by simp⟩)
  rcases hinv with ⟨h1, -, -⟩ | ⟨d1, p1, h1, h2, h3, h4, h5, hall⟩
  · rw [selectCommand, h1] at h
    exact absurd h (by simp)
  · rw [selectCommand, h1] at h
    obtain ⟨rfl, rfl⟩ : d1 = d ∧ p1 = p := by
      have := Option.some.inj h
      exact ⟨congrArg Prod.fst this, congrArg Prod.snd this⟩
    rw [h2] at hall
    simp only [List.nil_append] at h3 hall
    exact ⟨h3, h4, h5, hall⟩

/-- Completeness of the resolution fold: if some registered entry matches
with a positive name-path length, something is selected. -/
theorem selectCommand_spec_isSome {α : Type} (cmds : List (String × α))
    (argv : List String) (e : String × α) (he : e ∈ cmds)
    (hm : npMatches e.1 argv) (hl : 0 < (cmdNameParts e.1).length) :
    ∃ d p, selectCommand cmds argv = some (d, p) := by
  have hinv := selFold_inv argv cmds [] (none, 0)
    (Or.inl ⟨rfl, rfl, by simp⟩)
  rcases hinv with ⟨-, -, hall⟩ | ⟨d1, p1, h1, -, -, -, -, -⟩
  · have := hall e (by simpa using he) hm
    omega
  · exact ⟨d1, p1, by rw [selectCommand, h1]⟩

/-- Last-write-wins description of folding `mapSet` over a list of
entries with computed keys and values. -/
theorem foldl_mapSet_get {α β : Type} (key : β → String) (val : β → α) :
    ∀ (l : List β) (m : AList α) (k : String),
    mapGet (l.foldl (fun acc e => mapSet acc (key e) (val e)) m) k =
      (match (l.filter (fun e => key e == k)).getLast? with
       | some e => some (val e)
       | none => mapGet m k)
  | [], m, k => by simp
  | e :: t, m, k => by
    rw [List.foldl_cons, foldl_mapSet_get key val t (mapSet m (key e) (val e)) k]
    by_cases hk : key e = k
    · have hfe : (e :: t).filter (fun x => key x == k) =
          e :: t.filter (fun x => key x == k) := by
        simp [List.filter_cons, hk]
      rw [hfe]
      rcases hft : t.filter (fun x => key x == k) with _ | ⟨g, gs⟩
      · subst hk
        simp [mapGet_mapSet_self]
      · rw [List.getLast?_cons_cons]
        rcases hgl : (g :: gs).getLast? with _ | x
        · rw [List.getLast?_eq_none_iff] at hgl
          exact absurd hgl (by simp)
        · rfl
    · have hfe : (e :: t).filter (fun x => key x == k) =
          t.filter (fun x => key x == k) := by
        simp [List.filter_cons, hk]
      rw [hfe]
      rcases hft : t.filter (fun x => key x == k) with _ | ⟨g, gs⟩
      · simp [mapGet_mapSet_ne m (key e) k (val e) (Ne.symm hk)]
      · rcases hgl : (g :: gs).getLast? with _ | x
        · rw [List.getLast?_eq_none_iff] at hgl
          exact absurd hgl (by simp)
        · rfl

/-- Membership in `mapSet`. -/
theorem mapSet_mem {α : Type} (m : AList α) (k : String) (v : α)
    (e : String × α) (he : e ∈ mapSet m k v) : e ∈ m ∨ e = (k, v) := by
  induction m with
  | nil => simpa [mapSet] using he
  | cons e0 t ih =>
    rcases e0 with ⟨k0, v0⟩
    by_cases h0 : k0 = k
    · subst h0
      simp only [mapSet, beq_self_eq_true, if_true] at he
      rcases List.mem_cons.mp he with rfl | he
      · right; rfl
      · left; exact List.mem_cons_of_mem _ he
    · simp only [mapSet, beq_iff_eq, if_neg h0] at he
      rcases List.mem_cons.mp he with rfl | he
      · left; exact List.mem_cons_self _ _
      · rcases ih he with he | he
        · left; exact List.mem_cons_of_mem _ he
        · right; exact he

/-- In the merge fold of `Cli.run`, every association key is the long name
of its value. -/
theorem mergeDefs_assoc_key : ∀ (l : List FlagDef) (m : AList FlagDef),
    (∀ e ∈ m, e.1 = e.2.long) →
    ∀ e ∈ l.foldl (fun acc f => mapSet acc f.long f) m, e.1 = e.2.long
  | [], m, hm, e, he => hm e he
  | f :: t, m, hm, e, he => by
    refine mergeDefs_assoc_key t (mapSet m f.long f) ?_ e (by simpa using he)
    intro e' he'
    rcases mapSet_mem m f.long f e' he' with he' | rfl
    · exact hm e' he'
    · rfl

/-- Looking up a long name in the value list of a long-keyed association
is exactly the association lookup. -/
theorem find?_map_assoc (m : AList FlagDef) (k : String)
    (hinv : ∀ e ∈ m, e.1 = e.2.long) :
    (m.map (fun e => e.2)).find? (fun f => f.long == k) = mapGet m k := by
  induction m with
  | nil => simp [mapGet]
  | cons e0 t ih =>
    rcases e0 with ⟨k0, f0⟩
    have h0 : k0 = f0.long := hinv (k0, f0) (List.mem_cons_self _ _)
    subst h0
    by_cases hk : f0.long = k
    · simp [mapGet, List.find?_cons, hk]
    · simp only [List.map_cons, List.find?_cons, mapGet]
      rw [if_neg (by simpa using hk)]
      have : (f0.long == k) = false := by simpa using hk
      rw [this]
      exact ih (fun e he => hinv e (List.mem_cons_of_mem _ he))

/-- The merged definition looked up by the parsers is the **last** inserted
definition with that long name. -/
theorem mergeDefs_find? (l : List FlagDef) (k : String) :
    (mergeDefs l).find? (fun f => f.long == k) =
      (l.filter (fun f => f.long == k)).getLast? := by
  unfold mergeDefs
  rw [find?_map_assoc _ k (mergeDefs_assoc_key l [] (by simp))]
  rw [foldl_mapSet_get (fun f => f.long) (fun f => f) l [] k]
  rcases hgl : (l.filter (fun f => f.long == k)).getLast? with _ | g <;>
    rw [hgl] <;> rfl

/-- If a key is absent, every entry has a different key. -/
theorem mapGet_none_keys {α : Type} :
    ∀ (m : AList α) (k : String), mapGet m k = none → ∀ e ∈ m, e.1 ≠ k
  | [], _, _, e, he => by simp at he
  | (k0, v0) :: t, k, h, e, he => by
    by_cases h0 : k0 = k
    · rw [mapGet, if_pos (by simpa using h0)] at h
      exact absurd h (by simp)
    · rw [mapGet, if_neg (by simpa using h0)] at h
      rcases List.mem_cons.mp he with rfl | he
      · exact h0
      · exact mapGet_none_keys t k h e he

/-- Setting an absent key appends the pair. -/
theorem mapSet_append_of_none {α : Type} :
    ∀ (m : AList α) (k : String) (v : α), mapGet m k = none →
      mapSet m k v = m ++ [(k, v)]
  | [], k, v, _ => rfl
  | (k0, v0) :: t, k, v, h => by
    by_cases h0 : k0 = k
    · rw [mapGet, if_pos (by simpa using h0)] at h
      exact absurd h (by simp)
    · rw [mapGet, if_neg (by simpa using h0)] at h
      simp only [mapSet, if_neg (by simpa using h0 : ¬(k0 == k) = true)]
      rw [mapSet_append_of_none t k v h]
      simp

/-- With unique keys, the entries filtered on the key of a present pair
are exactly that pair. -/
theorem filter_key_singleton {α : Type} :
    ∀ (m : AList α) (d : String) (p : α),
    (m.map (fun e => e.1)).Nodup → mapGet m d = some p →
    m.filter (fun e => e.1 == d) = [(d, p)]
  | [], d, p, _, h => by simp [mapGet] at h
  | (k0, v0) :: t, d, p, hnd, h => by
    simp only [List.map_cons, List.nodup_cons] at hnd
    by_cases h0 : k0 = d
    · subst h0
      rw [mapGet, if_pos (by simp)] at h
      obtain rfl : v0 = p := Option.some.inj h
      have hnone : t.filter (fun e => e.1 == k0) = [] := by
        rw [List.filter_eq_nil]
        intro e he
        have : e.1 ≠ k0 := by
          intro hek
          exact hnd.1 (hek ▸ List.mem_map_of_mem (fun e => e.1) he)
        simpa using this
      simp [List.filter_cons, hnone]
    · rw [mapGet, if_neg (by simpa using h0)] at h
      have := filter_key_singleton t d p hnd.2 h
      simp [List.filter_cons, h0, this]

/-- Prepending a prefix keeps distinct pattern strings distinct. -/
theorem strPrepend_ne (pfx a b : String) (h : a ≠ b) :
    pfx ++ " " ++ a ≠ pfx ++ " " ++ b := by
  intro he
  apply h
  have hd := congrArg String.data he
  simp only [String.data_append] at hd
  have := List.append_cancel_left hd
  exact String.ext this

theorem contains_iff_mem (l : List String) (a : String) :
    l.contains a = true ↔ a ∈ l := by
  simp [List.contains, List.elem_iff]

/-- Binding positionals never touches a name that is not declared. -/
theorem bindPos_get_notmem :
    ∀ (names : List String) (j : Nat) (args : List String)
      (consumed : List Nat) (racc : AList ArgVal) (nm : String),
    nm ∉ names →
    mapGet (bindPos names j args consumed racc) nm = mapGet racc nm
  | [], _, _, _, _, _, _ => rfl
  | n0 :: rest, j, args, consumed, racc, nm, hn => by
    simp only [List.mem_cons, not_or] at hn
    simp only [bindPos]
    rw [bindPos_get_notmem rest (j + 1) args consumed _ nm hn.2]
    rcases args[j]? with _ | v
    · rfl
    · by_cases hc : (!jsStartsWith v ("-") && !consumed.contains j) = true
      · simp only [hc, if_true]
        exact mapGet_mapSet_ne racc n0 nm (ArgVal.str v) hn.1
      · have hc2 : ¬(jsStartsWith v ("-") = false ∧ j ∉ consumed) := by
          simpa using hc
        simp [hc2]

/-- Index-aligned description of `bindPos`: with distinct declared names,
the binding of the `i`-th declared name is decided by the raw token at the
same index `i` (offset by the starting index `j`), and nothing else. -/
theorem bindPos_get :
    ∀ (names : List String) (j : Nat) (args : List String)
      (consumed : List Nat) (racc : AList ArgVal) (i : Nat) (nm : String),
    names.Nodup → names[i]? = some nm →
    mapGet (bindPos names j args consumed racc) nm =
      (match args[j + i]? with
       | some v =>
         if !jsStartsWith v ("-") && !consumed.contains (j + i) then
           some (ArgVal.str v)
         else mapGet racc nm
       | none => mapGet racc nm)
  | [], _, _, _, _, i, _, _, hi => by simp at hi
  | n0 :: rest, j, args, consumed, racc, 0, nm, hnd, hi => by
    rw [List.getElem?_cons_zero] at hi
    have heq : n0 = nm := Option.some.inj hi
    rcases List.nodup_cons.mp hnd with ⟨hnin, -⟩
    rw [heq] at hnin
    simp only [bindPos, Nat.add_zero, heq]
    rw [bindPos_get_notmem rest (j + 1) args consumed _ nm hnin]
    rcases args[j]? with _ | v
    · rfl
    · by_cases hc : (!jsStartsWith v ("-") && !consumed.contains j) = true
      · simp only [hc, if_true]
        exact mapGet_mapSet_self racc nm (ArgVal.str v)
      · have hc2 : ¬(jsStartsWith v ("-") = false ∧ j ∉ consumed) := by
          simpa using hc
        simp [hc2]
  | n0 :: rest, j, args, consumed, racc, i + 1, nm, hnd, hi => by
    rw [List.getElem?_cons_succ] at hi
    rcases List.nodup_cons.mp hnd with ⟨hnin, hndr⟩
    have hmem : nm ∈ rest := List.getElem?_mem hi
    have hne : nm ≠ n0 := fun he => hnin (he ▸ hmem)
    simp only [bindPos]
    rw [bindPos_get rest (j + 1) args consumed _ i nm hndr hi]
    have hidx : j + 1 + i = j + (i + 1) := by omega
    rw [hidx]
    have hacc : mapGet
        (match args[j]? with
         | some v =>
           if !jsStartsWith v ("-") && !consumed.contains j then
             mapSet racc n0 (ArgVal.str v)
           else racc
         | none => racc) nm = mapGet racc nm := by
      rcases args[j]? with _ | v
      · rfl
      · by_cases hc : (!jsStartsWith v ("-") && !consumed.contains j) = true
        · simp only [hc, if_true]
          exact mapGet_mapSet_ne racc n0 nm (ArgVal.str v) hne
        · have hc2 : ¬(jsStartsWith v ("-") = false ∧ j ∉ consumed) := by
            simpa using hc
          simp [hc2]
    rw [hacc]

/-- If no program of the chain ever sets key `k`, then the store keeps no
binding for `k` and every logged `get` of `k` observed `none`. -/
theorem execActs_no_set (k : String) (as : List MwAct) (called : Bool)
    (rest : List Prog) (st : AList String) :
    ∀ (st' : AList String) (log : List (String × Option String)),
    (∀ v, MwAct.setv k v ∉ as) →
    (∀ prog ∈ rest, ∀ v, MwAct.setv k v ∉ prog) →
    mapGet st k = none →
    execActs as called rest st = Except.ok (st', log) →
    mapGet st' k = none ∧ (∀ o, (k, o) ∈ log → o = none) := by
  induction as, called, rest, st using execActs.induct with
  | case1 x x1 st =>
    intro st' log _ _ hst hex
    simp only [execActs] at hex
    have hpair := Except.ok.inj hex
    have h1 : st = st' := congrArg Prod.fst hpair
    have h2 : ([] : List (String × Option String)) = log := congrArg Prod.snd hpair
    rw [← h1, ← h2]
    exact ⟨hst, by simp⟩
  | case2 as rest st =>
    intro st' log _ _ _ hex
    rw [execActs.eq_def] at hex
    simp at hex
  | case3 as called st hcalled ih =>
    intro st' log hnas hnrest hst hex
    simp only [execActs, if_neg hcalled] at hex
    exact ih st' log (fun v hv => hnas v (List.mem_cons_of_mem _ hv))
      hnrest hst hex
  | case4 as called st hcalled p rest' e hinner ih =>
    intro st' log _ _ _ hex
    simp only [execActs, if_neg hcalled, hinner] at hex
    exact absurd hex (by simp)
  | case5 as called st hcalled p rest' st2 log2 hinner e houter ih1 ih2 =>
    intro st' log _ _ _ hex
    simp only [execActs, if_neg hcalled, hinner, houter] at hex
    exact absurd hex (by simp)
  | case6 as called st hcalled p rest' st2 log2 hinner st3 log3 houter ih1 ih2 =>
    intro st' log hnas hnrest hst hex
    simp only [execActs, if_neg hcalled, hinner, houter] at hex
    have hpair := Except.ok.inj hex
    have hst3 : st3 = st' := congrArg Prod.fst hpair
    have hlog : log2 ++ log3 = log := congrArg Prod.snd hpair
    have h1 := ih1 st2 log2 (fun v => hnrest p (List.mem_cons_self _ _) v)
      (fun prog hp v => hnrest prog (List.mem_cons_of_mem _ hp) v) hst hinner
    have h2 := ih2 st3 log3 (fun v hv => hnas v (List.mem_cons_of_mem _ hv))
      hnrest h1.1 houter
    rw [← hst3, ← hlog]
    refine ⟨h2.1, ?_⟩
    intro o ho
    rcases List.mem_append.mp ho with ho | ho
    · exact h1.2 o ho
    · exact h2.2 o ho
  | case7 k2 v2 as called rest st ih =>
    intro st' log hnas hnrest hst hex
    have hk2 : k2 ≠ k := by
      intro he
      subst he
      exact hnas v2 (List.mem_cons_self _ _)
    simp only [execActs] at hex
    exact ih st' log (fun v hv => hnas v (List.mem_cons_of_mem _ hv)) hnrest
      (by rw [mapGet_mapSet_ne st k2 k v2 (Ne.symm hk2)]; exact hst) hex
  | case8 k2 as called rest st e hinner ih =>
    intro st' log _ _ _ hex
    simp only [execActs, hinner] at hex
    exact absurd hex (by simp)
  | case9 k2 as called rest st st2 log2 hinner ih =>
    intro st' log hnas hnrest hst hex
    simp only [execActs, hinner] at hex
    have hpair := Except.ok.inj hex
    have hst2 : st2 = st' := congrArg Prod.fst hpair
    have hlog : (k2, mapGet st k2) :: log2 = log := congrArg Prod.snd hpair
    have h1 := ih st2 log2 (fun v hv => hnas v (List.mem_cons_of_mem _ hv))
      hnrest hst hinner
    rw [← hst2, ← hlog]
    refine ⟨h1.1, ?_⟩
    intro o ho
    rcases List.mem_cons.mp ho with ho | ho
    · have hk : k = k2 := congrArg Prod.fst ho
      have hv : o = mapGet st k2 := congrArg Prod.snd ho
      rw [hv, ← hk, hst]
    · exact h1.2 o ho

/-- The duplicate-argument loop of `Cli.command` succeeds exactly on lists
whose members are distinct and disjoint from the seen set. -/
theorem checkDupArgs_ok_iff :
    ∀ (l seen : List String), checkDupArgs l seen = Except.ok () ↔
      (l.Nodup ∧ ∀ a ∈ l, a ∉ seen)
  | [], seen => by simp [checkDupArgs]
  | a :: rest, seen => by
    simp only [checkDupArgs]
    by_cases ha : seen.contains a = true
    · rw [if_pos ha]
      rw [contains_iff_mem] at ha
      constructor
      · intro h
        exact absurd h (by simp)
      · rintro ⟨-, hall⟩
        exact absurd ha (hall a (List.mem_cons_self _ _))
    · rw [if_neg ha]
      rw [contains_iff_mem] at ha
      rw [checkDupArgs_ok_iff rest (a :: seen)]
      constructor
      · rintro ⟨hnd, hall⟩
        refine ⟨List.nodup_cons.mpr ⟨?_, hnd⟩, ?_⟩
        · intro hmem
          exact (hall a hmem) (List.mem_cons_self _ _)
        · intro b hb
          rcases List.mem_cons.mp hb with rfl | hb
          · exact ha
          · exact fun hbs => (hall b hb) (List.mem_cons_of_mem _ hbs)
      · rintro ⟨hnd, hall⟩
        rcases List.nodup_cons.mp hnd with ⟨hna, hndr⟩
        refine ⟨hndr, ?_⟩
        intro b hb hbc
        rcases List.mem_cons.mp hbc with rfl | hbs
        · exact hna hb
        · exact (hall b (List.mem_cons_of_mem _ hb)) hbs

/-- The flag/option collision loop of `Cli.command` succeeds exactly when
no option long name is among the flag long names. -/
theorem flagOptionCheckLoop_ok_iff :
    ∀ (flagNames : List String) (ods : List FlagDef),
    flagOptionCheckLoop flagNames ods = Except.ok () ↔
      ∀ o ∈ ods, o.long ∉ flagNames
  | _, [] => by simp [flagOptionCheckLoop]
  | fns, o :: rest => by
    simp only [flagOptionCheckLoop]
    by_cases hc : fns.contains o.long = true
    · rw [if_pos hc]
      rw [contains_iff_mem] at hc
      constructor
      · intro h
        exact absurd h (by simp)
      · intro hall
        exact absurd hc (hall o (List.mem_cons_self _ _))
    · rw [if_neg hc]
      rw [contains_iff_mem] at hc
      rw [flagOptionCheckLoop_ok_iff fns rest]
      constructor
      · intro hall o2 ho2
        rcases List.mem_cons.mp ho2 with rfl | ho2
        · exact hc
        · exact hall o2 ho2
      · intro hall o2 ho2
        exact hall o2 (List.mem_cons_of_mem _ ho2)

/-- Unfolding of `Cli.run` on the success path. -/
theorem run_eq_completed (cli : Cli) (argv : List String) (d : String)
    (p : Prog) (ctx : CtxData) (st : AList String)
    (log : List (String × Option String))
    (h1 : selectCommand cli.commands argv = some (d, p))
    (h2 : runParse d (matchedMiddlewares cli d)
      (argv.drop (cmdNameParts d).length) = Except.ok ctx)
    (h3 : validateArgs d ctx.parsedArgs = Except.ok ())
    (h4 : execChain ((matchedMiddlewares cli d).map (fun mw => mw.2) ++ [p])
      [] = Except.ok (st, log)) :
    cli.run argv = RunResult.completed ctx st log := by
  simp only [Cli.run, h1, h2, h3, h4]

/-- A successful `Cli.command` only inserts the new pattern into the
command map. -/
theorem command_ok_commands (cli : Cli) (nm : String) (h0 : Prog)
    (cli2 : Cli) (h : cli.command nm h0 = Except.ok cli2) :
    cli2 = { cli with commands := mapSet cli.commands nm h0 } := by
  unfold Cli.command at h
  split at h
  · exact absurd h (by simp)
  · split at h
    · exact absurd h (by simp)
    · split at h
      · exact absurd h (by simp)
      · split at h
        · exact absurd h (by simp)
        · split at h
          · exact absurd h (by simp)
          · split at h
            · exact absurd h (by simp)
            · exact (Except.ok.inj h).symm

/-! ### The claims -/

/-- Claim C1, counterexample.  On the registry holding only `"a [x]"` and
argv `["a"]`, the source matcher tracks the pattern as `found` although
its required-positional threshold (one required argument, zero remaining
argv tokens) is unmet, whereas the matcher worded as in the claim selects
nothing.  (The run then reports the missing argument, but resolution
itself applied no threshold.) -/
theorem c1_counterexample :
    selectCommand [("a [x]", ([] : Prog))] ["a"] = some ("a [x]", []) ∧
    selectCommandSpecC1 [("a [x]", ([] : Prog))] ["a"] = none ∧
    requiredArgCountSpec "a [x]" = 1 ∧
    List.length ["a"] - (cmdNameParts "a [x]").length = 0 :=
  ⟨rfl, rfl, rfl, rfl⟩

/-- Claim C1, amended.  For every registry and argv, `run()` resolves the
matched command as the registered pattern with the greatest literal
name-path length `L` whose space-joined name path equals the space-joined
first `L` argv tokens, with no required-argument threshold taking part in
the tracking: the selected entry is registered, name-path-matching, of
positive name-path length, and of maximal name-path length among all
matching entries; conversely, whenever some registered entry matches with
positive name-path length, a command is found. -/
theorem c1_amended :
    (∀ (cmds : List (String × Prog)) (argv : List String) (d : String)
       (p : Prog), selectCommand cmds argv = some (d, p) →
       ((d, p) ∈ cmds ∧ npMatches d argv ∧ 0 < (cmdNameParts d).length ∧
        ∀ e ∈ cmds, npMatches e.1 argv →
          (cmdNameParts e.1).length ≤ (cmdNameParts d).length)) ∧
    (∀ (cmds : List (String × Prog)) (argv : List String)
       (e : String × Prog), e ∈ cmds → npMatches e.1 argv →
       0 < (cmdNameParts e.1).length → (selectCommand cmds argv).isSome) := by
  constructor
  · intro cmds argv d p h
    exact selectCommand_spec_some cmds argv d p h
  · intro cmds argv e he hm hl
    obtain ⟨d, p, h⟩ := selectCommand_spec_isSome cmds argv e he hm hl
    rw [h]
    rfl

/-- Claim C1, witness for the amended theorem at a concrete registry. -/
theorem c1_witness :
    ("a b", ([] : Prog)) ∈ [("a", ([] : Prog)), ("a b", [])] ∧
    npMatches "a b" ["a", "b"] ∧ 0 < (cmdNameParts "a b").length ∧
    ∀ e ∈ [("a", ([] : Prog)), ("a b", [])], npMatches e.1 ["a", "b"] →
      (cmdNameParts e.1).length ≤ (cmdNameParts "a b").length :=
  c1_amended.1 [("a", []), ("a b", [])] ["a", "b"] "a b" [] rfl

/-- Claim C2, counterexample.  A command declaring `--verbose|-v` and a
matched middleware declaring `--verbose|-x` collide on the long name
`verbose`; the merged definition is the middleware's (short `-x`), not the
command's own, and `run` indeed recognises `-x`: the claimed precedence
(realised by `mergeDefsSpecC2`) is the opposite of the code's. -/
theorem c2_counterexample :
    extractFlagDefs "foo --verbose|-v" = Except.ok [⟨"verbose", some "v"⟩] ∧
    extractFlagDefs "foo --verbose|-x" = Except.ok [⟨"verbose", some "x"⟩] ∧
    mergeDefs ([⟨"verbose", some "v"⟩] ++ [⟨"verbose", some "x"⟩]) =
      [⟨"verbose", some "x"⟩] ∧
    mergeDefsSpecC2 [⟨"verbose", some "v"⟩] [⟨"verbose", some "x"⟩] =
      [⟨"verbose", some "v"⟩] ∧
    (match Cli.run ⟨"app", [("foo --verbose|-v", [])],
        [("foo --verbose|-x", [MwAct.next])], []⟩ ["foo", "-x"] with
     | RunResult.completed ctx _ _ => ctxFlag ctx "verbose"
     | _ => none) = some true := by
  refine ⟨rfl, rfl, rfl, rfl, ?_⟩
  have hchain : execChain [[MwAct.next], ([] : Prog)] [] =
      Except.ok ([], []) := by
    simp [execChain, execActs]
  have h := run_eq_completed
    ⟨"app", [("foo --verbose|-v", [])],
      [("foo --verbose|-x", [MwAct.next])], []⟩
    ["foo", "-x"] "foo --verbose|-v" []
    ⟨[], [("verbose", true)], []⟩ [] []
    rfl rfl rfl hchain
  rw [h]
  rfl

/-- Claim C2, amended.  On a long-name collision the merged definition
used to parse argv is the **last** definition inserted into the merge map,
i.e. the (last matched) middleware's definition overrides the command's
own, not the other way round: looking a long name up in `mergeDefs`
returns the last entry of the input with that long name, and whenever some
middleware contributes the long name, that last entry comes from the
middleware list appended after the command's definitions. -/
theorem c2_amended :
    (∀ (allDefs : List FlagDef) (k : String),
       (mergeDefs allDefs).find? (fun f => f.long == k) =
         (allDefs.filter (fun f => f.long == k)).getLast?) ∧
    (∀ (cmdDefs mwDefs : List FlagDef) (k : String) (g : FlagDef),
       (mwDefs.filter (fun f => f.long == k)).getLast? = some g →
       (mergeDefs (cmdDefs ++ mwDefs)).find? (fun f => f.long == k) =
         some g) := by
  constructor
  · exact mergeDefs_find?
  · intro cmdDefs mwDefs k g hg
    rw [mergeDefs_find?, List.filter_append]
    rw [List.getLast?_append_of_ne_nil]
    · exact hg
    · intro he
      rw [he] at hg
      exact absurd hg (by simp)

/-- Claim C2, witness for the amended theorem at a concrete collision. -/
theorem c2_witness :
    (mergeDefs ([⟨"verbose", some "v"⟩] ++ [⟨"verbose", some "x"⟩])).find?
      (fun f => f.long == "verbose") = some ⟨"verbose", some "x"⟩ :=
  c2_amended.2 [⟨"verbose", some "v"⟩] [⟨"verbose", some "x"⟩] "verbose"
    ⟨"verbose", some "x"⟩ rfl

/-- Claim C3, counterexample.  For pattern `"copy [src] --force"` and raw
arguments `["--force", "a"]`, the source binds nothing (`src` is paired
with raw index 0, occupied by the flag token) and the whole run reports
`src` as missing even though a value is present, whereas the walking
extraction worded as in the claim binds `src := "a"`. -/
theorem c3_counterexample :
    parseCommandArgs "copy [src] --force" ["--force", "a"] =
      Except.ok [] ∧
    parseCommandArgsSpecC3 "copy [src] --force" ["--force", "a"] =
      Except.ok [("src", ArgVal.str "a")] ∧
    Cli.run ⟨"app", [("copy [src] --force", [])], [], []⟩
      ["copy", "--force", "a"] =
      RunResult.missingArg ("Required argument 'src' is missing") :=
  ⟨rfl, rfl, rfl⟩

/-- Claim C3, amended.  For a pattern without a variadic unit and with
distinct declared positional names, extraction binds the `i`-th declared
positional to the raw token at index `i` exactly when that token exists,
does not start with `-`, and index `i` was not consumed as an option
value; otherwise the positional stays unbound.  In particular a flag or
option token occupying an earlier raw index does shift later positionals
away from their values rather than being walked over. -/
theorem c3_amended :
    ∀ (commandDef : String) (args : List String)
      (pc : AList (Option String) × List Nat) (r : AList ArgVal)
      (i : Nat) (nm : String),
    parseOptionsWithConsumed commandDef args = Except.ok pc →
    (bracketScan commandDef.toList).findIdx?
      (fun inner => "...".toList.isPrefixOf inner) = none →
    (parsedArgNames commandDef).Nodup →
    parseCommandArgs commandDef args = Except.ok r →
    (parsedArgNames commandDef)[i]? = some nm →
    mapGet r nm =
      (match args[i]? with
       | some v =>
         if !jsStartsWith v ("-") && !pc.2.contains i then
           some (ArgVal.str v)
         else none
       | none => none) := by
  intro commandDef args pc r i nm hpc hvar hnd hparse hi
  simp only [parseCommandArgs, hpc, hvar] at hparse
  have hr : bindPos (parsedArgNames commandDef) 0 args pc.2 [] = r :=
    Except.ok.inj hparse
  rw [← hr]
  rw [bindPos_get (parsedArgNames commandDef) 0 args pc.2 [] i nm hnd hi]
  simp only [Nat.zero_add]
  rcases args[i]? with _ | v
  · rfl
  · by_cases hc : (!jsStartsWith v ("-") && !pc.2.contains i) = true
    · simp only [hc, if_true]
    · have hc2 : ¬(jsStartsWith v ("-") = false ∧ i ∉ pc.2) := by
        simpa using hc
      simp [hc2, mapGet]

/-- Claim C3, witness for the amended theorem: on the counterexample
input, `src` is left unbound because raw index 0 holds the flag token. -/
theorem c3_witness :
    mapGet ([] : AList ArgVal) "src" =
      (match (["--force", "a"])[0]? with
       | some v =>
         if !jsStartsWith v ("-") && !([] : List Nat).contains 0 then
           some (ArgVal.str v)
         else none
       | none => none) :=
  c3_amended "copy [src] --force" ["--force", "a"] ([], []) [] 0 "src"
    rfl rfl (by decide) rfl rfl

/-- Claim C4, counterexample.  The pattern `"foo [force] --force"` has a
positional and a flag sharing the identifier `force`, yet registration
succeeds: duplicate-name detection does not span bracket names and flag
names. -/
theorem c4_counterexample :
    extractArgNames "foo [force] --force" = Except.ok ["force"] ∧
    extractFlagDefs "foo [force] --force" =
      Except.ok [⟨"force", none⟩] ∧
    (mkCli "app").command "foo [force] --force" [] =
      Except.ok ⟨"app", [("foo [force] --force", [])], [], []⟩ :=
  ⟨rfl, rfl, rfl⟩

/-- Claim C4, amended.  Registration-time duplicate detection is per
kind: the bracket names (positionals and the variadic together) must be
pairwise distinct, flag long/short names and option long/short names must
be distinct within their own extractors, and a flag long name colliding
with an option long name is rejected — but a bracket name sharing its
identifier with a flag or option is not checked.  The two checks of
`Cli.command` are characterised exactly: the bracket-name check succeeds
iff the names are pairwise distinct, and the flag/option collision check
succeeds iff no option long name equals a flag long name. -/
theorem c4_amended :
    (∀ (argNames : List String),
       checkDupArgs argNames [] = Except.ok () ↔ argNames.Nodup) ∧
    (∀ (flagDefs optionDefs : List FlagDef),
       flagOptionCheckLoop (flagDefs.map (fun f => f.long)) optionDefs =
           Except.ok () ↔
         ∀ o ∈ optionDefs, ∀ f ∈ flagDefs, o.long ≠ f.long) := by
  constructor
  · intro l
    rw [checkDupArgs_ok_iff l []]
    simp
  · intro fd od
    rw [flagOptionCheckLoop_ok_iff]
    constructor
    · intro h o ho f hf he
      exact (h o ho) (he ▸ List.mem_map_of_mem (fun f => f.long) hf)
    · intro h o ho hmem
      rcases List.mem_map.mp hmem with ⟨f, hf, hfe⟩
      exact h o ho f hf hfe.symm

/-- Claim C4, witness for the amended theorem at concrete name lists. -/
theorem c4_witness :
    checkDupArgs ["force"] [] = Except.ok () ∧
    flagOptionCheckLoop (([⟨"force", none⟩] : List FlagDef).map
      (fun f => f.long)) ([⟨"opt", none⟩] : List FlagDef) = Except.ok () :=
  ⟨(c4_amended.1 ["force"]).mpr (by simp),
   (c4_amended.2 [⟨"force", none⟩] [⟨"opt", none⟩]).mpr (by
     intro o ho f hf
     simp only [List.mem_singleton] at ho hf
     subst ho
     subst hf
     decide)⟩

/-- Claim C5.  For every registry and argv: when no registered command's
name path matches, `run` returns the reported `noCommand` outcome, and
when the resolved command's validation reports a missing required
argument, `run` returns the reported `missingArg` outcome.  In both cases
the result is a normal return (not the `thrown` outcome), and the
middleware chain executor is never reached, so neither any middleware nor
any handler is invoked. -/
theorem c5_claim : ∀ (cli : Cli) (argv : List String),
    (selectCommand cli.commands argv = none →
      cli.run argv = RunResult.noCommand) ∧
    (∀ (d : String) (p : Prog) (ctx : CtxData) (m : String),
      selectCommand cli.commands argv = some (d, p) →
      runParse d (matchedMiddlewares cli d)
        (argv.drop (cmdNameParts d).length) = Except.ok ctx →
      validateArgs d ctx.parsedArgs = Except.error m →
      cli.run argv = RunResult.missingArg m) := by
  intro cli argv
  constructor
  · intro h
    simp only [Cli.run, h]
  · intro d p ctx m h1 h2 h3
    simp only [Cli.run, h1, h2, h3]

/-- Claim C5, witness at two concrete failing invocations. -/
theorem c5_witness :
    Cli.run ⟨"app", [], [], []⟩ ["x"] = RunResult.noCommand ∧
    Cli.run ⟨"app", [("hello [name]", [])], [], []⟩ ["hello"] =
      RunResult.missingArg ("Required argument 'name' is missing") :=
  ⟨(c5_claim ⟨"app", [], [], []⟩ ["x"]).1 rfl,
   (c5_claim ⟨"app", [("hello [name]", [])], [], []⟩ ["hello"]).2
     "hello [name]" [] ⟨[], [], []⟩
     ("Required argument 'name' is missing") rfl rfl rfl⟩

/-- Claim C6.  A link's continuation is single-use: once its inner chain
has completed successfully, invoking the continuation a second time raises
exactly `next() called multiple times` (first conjunct, for any actions
still pending, any inner chain and any store).  And any error produced by
the chain executor — this one included — propagates out of `run`
uncaught, as the `thrown` outcome (second conjunct). -/
theorem c6_claim :
    (∀ (rest : List Prog) (as : List MwAct) (st : AList String)
       (r : AList String × List (String × Option String)),
       execChain rest st = Except.ok r →
       execActs (MwAct.next :: MwAct.next :: as) false rest st =
         Except.error ("next() called multiple times")) ∧
    (∀ (cli : Cli) (argv : List String) (d : String) (p : Prog)
       (ctx : CtxData) (m : String),
       selectCommand cli.commands argv = some (d, p) →
       runParse d (matchedMiddlewares cli d)
         (argv.drop (cmdNameParts d).length) = Except.ok ctx →
       validateArgs d ctx.parsedArgs = Except.ok () →
       execChain ((matchedMiddlewares cli d).map (fun mw => mw.2) ++ [p])
         [] = Except.error m →
       cli.run argv = RunResult.thrown m) := by
  constructor
  · intro rest as st r h
    rcases rest with _ | ⟨p, rest'⟩
    · simp [execActs]
    · have hchain : execActs p false rest' st = Except.ok r := by
        simpa [execChain] using h
      rcases r with ⟨st1, log1⟩
      simp [execActs, hchain]
  · intro cli argv d p ctx m h1 h2 h3 h4
    simp only [Cli.run, h1, h2, h3, h4]

/-- Claim C6, witness: a concrete double `next()` raises, and the error
escapes a concrete `run`. -/
theorem c6_witness :
    execActs [MwAct.next, MwAct.next] false [] [] =
      Except.error ("next() called multiple times") ∧
    Cli.run ⟨"app", [("boom", [MwAct.next, MwAct.next])], [], []⟩ ["boom"] =
      RunResult.thrown ("next() called multiple times") :=
  ⟨c6_claim.1 [] [] [] ([], []) rfl,
   c6_claim.2 ⟨"app", [("boom", [MwAct.next, MwAct.next])], [], []⟩
     ["boom"] "boom" [MwAct.next, MwAct.next] ⟨[], [], []⟩
     ("next() called multiple times") rfl rfl rfl
     ((by simp [execChain, execActs] :
        execChain [[MwAct.next, MwAct.next]] [] =
          Except.error ("next() called multiple times")))⟩

/-- Claim C7.  For the registered pattern
`"cat [...files] --flag --opt=<string>"` and argv
`["cat", "a.txt", "--flag", "--opt", "v", "b.txt"]`, the handler observes
`args("files") = ["a.txt", "b.txt"]` in argv order, `flag("flag") = true`
and `option("opt") = "v"`: the flag token, the option token, and the token
consumed as the option's value are all excluded from the variadic list
even though they sit between the captured values. -/
theorem c7_claim :
    (mkCli "app").command "cat [...files] --flag --opt=<string>" [] =
      Except.ok
        ⟨"app", [("cat [...files] --flag --opt=<string>", [])], [], []⟩ ∧
    (match Cli.run
        ⟨"app", [("cat [...files] --flag --opt=<string>", [])], [], []⟩
        ["cat", "a.txt", "--flag", "--opt", "v", "b.txt"] with
     | RunResult.completed ctx _ _ =>
       some (ctxArgs ctx "files", ctxFlag ctx "flag", ctxOption ctx "opt")
     | _ => none) =
    some (["a.txt", "b.txt"], some true, some "v") := by
  constructor
  · rfl
  · have hchain : execChain [([] : Prog)] [] = Except.ok ([], []) := by
      simp [execChain, execActs]
    have h := run_eq_completed
      ⟨"app", [("cat [...files] --flag --opt=<string>", [])], [], []⟩
      ["cat", "a.txt", "--flag", "--opt", "v", "b.txt"]
      "cat [...files] --flag --opt=<string>" []
      ⟨[("files", ArgVal.list ["a.txt", "b.txt"])], [("flag", true)],
        [("opt", some "v")]⟩ [] []
      rfl rfl rfl hchain
    rw [h]
    rfl

/-- Claim C8.  The variables store is per-invocation and never persisted:
`run` leaves the registry (including the instance `vars` field) untouched,
so a second `run` on it behaves as a `run` on the original registry
(first conjunct); and within one invocation the chain starts from the
empty store, so if no program of the chain sets a key, every `get` of that
key observes `undefined` — a `set` from an earlier invocation is never
observable (second conjunct). -/
theorem c8_claim :
    (∀ (cli : Cli) (a1 a2 : List String),
       Cli.runS (Cli.runS cli a1).2 a2 = Cli.runS cli a2) ∧
    (∀ (progs : List Prog) (k : String) (st' : AList String)
       (log : List (String × Option String)),
       (∀ prog ∈ progs, ∀ v, MwAct.setv k v ∉ prog) →
       execChain progs [] = Except.ok (st', log) →
       ∀ o, (k, o) ∈ log → o = none) := by
  constructor
  · intro cli a1 a2
    rfl
  · intro progs k st' log hno hex o ho
    rcases progs with _ | ⟨p, rest⟩
    · simp only [execChain] at hex
      have hlog : ([] : List (String × Option String)) = log :=
        congrArg Prod.snd (Except.ok.inj hex)
      rw [← hlog] at ho
      simp at ho
    · have h := execActs_no_set k p false rest [] st' log
        (fun v => hno p (List.mem_cons_self _ _) v)
        (fun prog hp v => hno prog (List.mem_cons_of_mem _ hp) v)
        rfl (by simpa [execChain] using hex)
      exact h.2 o ho

/-- Claim C8, witness: running twice is running once on the original
registry, and a chain that only reads `k` observes `undefined`. -/
theorem c8_witness :
    Cli.runS (Cli.runS ⟨"app", [("go", [MwAct.setv "k" "v"])], [], []⟩
        ["go"]).2 ["go"] =
      Cli.runS ⟨"app", [("go", [MwAct.setv "k" "v"])], [], []⟩ ["go"] ∧
    ∀ o, ("k", o) ∈ [("k", (none : Option String))] → o = none :=
  ⟨c8_claim.1 ⟨"app", [("go", [MwAct.setv "k" "v"])], [], []⟩
     ["go"] ["go"],
   c8_claim.2 [[MwAct.getv "k"]] "k" [] [("k", none)]
     (by
       intro prog hp v
       simp only [List.mem_singleton] at hp
       subst hp
       simp)
     (by simp [execChain, execActs, mapGet]) ⟩

/-- Claim C9.  `mount` copies each command entry of the sub-registry into
the parent with the prefix prepended (first conjunct: every binding of the
sub-registry map reappears under its prefixed pattern, sharing the
handler).  The copy is a snapshot of the sub-registry's value: registering
a genuinely new command on the sub-registry afterwards yields a new
registry value, and the parent mounted from the old value has no entry for
the new prefixed pattern, while only re-mounting the mutated value would
contain it (second conjunct). -/
theorem c9_claim : ∀ (parent subCli sub2 : Cli) (pfx d nmNew : String)
    (p prog : Prog),
    ((subCli.commands.map (fun e => e.1)).Nodup →
      mapGet subCli.commands d = some p →
      mapGet (parent.mount pfx subCli).commands (pfx ++ " " ++ d) =
        some p) ∧
    (subCli.command nmNew prog = Except.ok sub2 →
      mapGet subCli.commands nmNew = none →
      mapGet parent.commands (pfx ++ " " ++ nmNew) = none →
      mapGet (parent.mount pfx subCli).commands (pfx ++ " " ++ nmNew) =
          none ∧
        mapGet (parent.mount pfx sub2).commands (pfx ++ " " ++ nmNew) =
          some prog) := by
  intro parent subCli sub2 pfx d nmNew p prog
  have hfeq : ∀ (cs : List (String × Prog)) (k : String),
      cs.filter (fun e => (pfx ++ " " ++ e.1) == (pfx ++ " " ++ k)) =
        cs.filter (fun e => e.1 == k) := by
    intro cs k
    apply List.filter_congr
    intro e he
    by_cases hed : e.1 = k
    · simp [hed]
    · have h1 : pfx ++ " " ++ e.1 ≠ pfx ++ " " ++ k :=
        strPrepend_ne pfx e.1 k hed
      simp [hed, h1]
  constructor
  · intro hnd hget
    show mapGet (subCli.commands.foldl
        (fun cs e => mapSet cs (pfx ++ " " ++ e.1) e.2) parent.commands)
      (pfx ++ " " ++ d) = some p
    rw [foldl_mapSet_get (fun e => pfx ++ " " ++ e.1) (fun e => e.2)
      subCli.commands parent.commands (pfx ++ " " ++ d)]
    rw [hfeq subCli.commands d,
      filter_key_singleton subCli.commands d p hnd hget]
    rfl
  · intro hok hnone hpnone
    have hsub2 : sub2 =
        { subCli with commands := mapSet subCli.commands nmNew prog } :=
      command_ok_commands subCli nmNew prog sub2 hok
    have hfilnil : subCli.commands.filter
        (fun e => (pfx ++ " " ++ e.1) == (pfx ++ " " ++ nmNew)) = [] := by
      rw [hfeq subCli.commands nmNew, List.filter_eq_nil_iff]
      intro e he
      have hne : e.1 ≠ nmNew := mapGet_none_keys subCli.commands nmNew
        hnone e he
      simpa using hne
    constructor
    · show mapGet (subCli.commands.foldl
          (fun cs e => mapSet cs (pfx ++ " " ++ e.1) e.2) parent.commands)
        (pfx ++ " " ++ nmNew) = none
      rw [foldl_mapSet_get (fun e => pfx ++ " " ++ e.1) (fun e => e.2)
        subCli.commands parent.commands (pfx ++ " " ++ nmNew)]
      rw [hfilnil]
      exact hpnone
    · rw [hsub2]
      show mapGet ((mapSet subCli.commands nmNew prog).foldl
          (fun cs e => mapSet cs (pfx ++ " " ++ e.1) e.2) parent.commands)
        (pfx ++ " " ++ nmNew) = some prog
      rw [mapSet_append_of_none subCli.commands nmNew prog hnone]
      rw [foldl_mapSet_get (fun e => pfx ++ " " ++ e.1) (fun e => e.2)
        (subCli.commands ++ [(nmNew, prog)]) parent.commands
        (pfx ++ " " ++ nmNew)]
      rw [List.filter_append, hfilnil]
      simp

/-- Claim C9, witness at a concrete mount followed by a registration on
the sub-registry. -/
theorem c9_witness :
    mapGet ((mkCli "root").mount "branch"
        ⟨"b", [("list", [])], [], []⟩).commands
      ("branch" ++ " " ++ "list") = some [] ∧
    (mapGet ((mkCli "root").mount "branch"
        ⟨"b", [("list", [])], [], []⟩).commands
      ("branch" ++ " " ++ "del") = none ∧
     mapGet ((mkCli "root").mount "branch"
        ⟨"b", [("list", []), ("del", [])], [], []⟩).commands
      ("branch" ++ " " ++ "del") = some []) :=
  ⟨(c9_claim (mkCli "root") ⟨"b", [("list", [])], [], []⟩
      ⟨"b", [("list", []), ("del", [])], [], []⟩ "branch" "list" "del"
      [] []).1 (by decide) rfl,
   (c9_claim (mkCli "root") ⟨"b", [("list", [])], [], []⟩
      ⟨"b", [("list", []), ("del", [])], [], []⟩ "branch" "list" "del"
      [] []).2 rfl rfl rfl⟩

/-- Claim C10.  A registered command whose pattern begins with a bracket
or flag unit has an empty literal name path and is never resolved: every
entry the matcher selects has a non-empty name path (the tracking requires
a length strictly greater than the initial zero), and on a registry all of
whose commands have empty name paths, `run` reports `noCommand` for every
argv — no such command's handler is ever invoked. -/
theorem c10_claim :
    (∀ (cmds : List (String × Prog)) (argv : List String) (d : String)
       (p : Prog), selectCommand cmds argv = some (d, p) →
       cmdNameParts d ≠ []) ∧
    (∀ (cli : Cli) (argv : List String),
       (∀ e ∈ cli.commands, cmdNameParts e.1 = []) →
       cli.run argv = RunResult.noCommand) := by
  constructor
  · intro cmds argv d p h he
    have hl := (selectCommand_spec_some cmds argv d p h).2.2.1
    rw [he] at hl
    simp at hl
  · intro cli argv hall
    have hnone : selectCommand cli.commands argv = none := by
      rcases hsel : selectCommand cli.commands argv with _ | ⟨d, q⟩
      · rfl
      · have h1 := selectCommand_spec_some cli.commands argv d q hsel
        have h2 := hall (d, q) h1.1
        have hl := h1.2.2.1
        rw [h2] at hl
        simp at hl
    simp only [Cli.run, hnone]

/-- Claim C10, witness: a selected pattern has a non-empty name path, and
a registry holding only the pattern `"[x]"` resolves nothing. -/
theorem c10_witness :
    cmdNameParts "run" ≠ [] ∧
    Cli.run ⟨"app", [("[x]", [])], [], []⟩ ["a"] = RunResult.noCommand :=
  ⟨c10_claim.1 [("run", [])] ["run"] "run" [] rfl,
   c10_claim.2 ⟨"app", [("[x]", [])], [], []⟩ ["a"] (by
     intro e he
     simp only [List.mem_singleton] at he
     subst he
     rfl)⟩

end Recette
